import Mathlib

/-!
Verification of the core of `hilbert_encrypt.cpp` (HilbertCrypt):
a generalized Hilbert-curve coordinate generator (`generate2d`,
`generate_mapping`) and a pixel-permutation engine (`copy_pixels`,
`process_image`) that cyclically shifts pixels along the curve by a
golden-ratio offset.

Machine integers (`int`, `int64_t`) are modelled as `Int`; no arithmetic
in the verified fragment approaches 32- or 64-bit overflow in the claims
under consideration.  C++ `/` and `%` on `int` truncate toward zero, so
they are modelled with `Int.tdiv` / `Int.tmod`.  The unbounded C++
recursion of `generate2d` is modelled with an explicit fuel parameter;
`generate_mapping` supplies fuel `width + height`, which is proved
sufficient (each recursive call strictly decreases `w + h`).
-/

namespace HilbertCrypt

/-- Sign helper mirroring the C++ conditional expression
`(v == 0 ? 0 : v > 0 ? 1 : -1)` used for `dax, day, dbx, dby`
(hilbert_encrypt.cpp lines 75–78). -/
def sgn (v : Int) : Int := if v = 0 then 0 else if v > 0 then 1 else -1

/-- The recursive generalized-Hilbert-curve generator, a direct
transcription of `generate2d` (hilbert_encrypt.cpp lines 71–127).
The accumulating output vector is replaced by returning the list of
emitted coordinates; the two emission loops of the base cases are
written in closed form (`x` after `i` increments by `dax` is
`x + i * dax`).  The extra `fuel` argument makes the recursion
structural; fuel `0` is never reached when called with fuel `≥ w + h`. -/
def generate2d : Nat → Int → Int → Int → Int → Int → Int → List (Int × Int)
  | 0, _, _, _, _, _, _ => []
  | (fuel+1), x, y, ax, ay, bx, b_y =>
    let w := (ax + ay).natAbs
    let h := (bx + b_y).natAbs
    let dax := sgn ax
    let day := sgn ay
    let dbx := sgn bx
    let dby := sgn b_y
    if h = 1 then
      (List.range w).map (fun (i : Nat) => (x + (i : Int) * dax, y + (i : Int) * day))
    else if w = 1 then
      (List.range h).map (fun (i : Nat) => (x + (i : Int) * dbx, y + (i : Int) * dby))
    else
      let ax2 := ax.tdiv 2
      let ay2 := ay.tdiv 2
      let bx2 := bx.tdiv 2
      let by2 := b_y.tdiv 2
      let w2 := (ax2 + ay2).natAbs
      let h2 := (bx2 + by2).natAbs
      if 2 * w > 3 * h then
        let ax2 := if w2 % 2 ≠ 0 ∧ w > 2 then ax2 + dax else ax2
        let ay2 := if w2 % 2 ≠ 0 ∧ w > 2 then ay2 + day else ay2
        generate2d fuel x y ax2 ay2 bx b_y ++
          generate2d fuel (x + ax2) (y + ay2) (ax - ax2) (ay - ay2) bx b_y
      else
        let bx2 := if h2 % 2 ≠ 0 ∧ h > 2 then bx2 + dbx else bx2
        let by2 := if h2 % 2 ≠ 0 ∧ h > 2 then by2 + dby else by2
        generate2d fuel x y bx2 by2 ax2 ay2 ++
          (generate2d fuel (x + bx2) (y + by2) ax ay (bx - bx2) (b_y - by2) ++
            generate2d fuel (x + (ax - dax) + (bx2 - dbx)) (y + (ay - day) + (by2 - dby))
              (-bx2) (-by2) (-(ax - ax2)) (-(ay - ay2)))

/-- `generate_mapping` (hilbert_encrypt.cpp lines 130–179): rejects
non-positive dimensions (returning the empty list, the code's
InvalidDimensions outcome), orients the initial call so the longer side
is the primary axis, and discards the result if its length does not
match `width * height`.  Logging is omitted.  Fuel `width + height`
is supplied to the recursion. -/
def generate_mapping (width height : Int) : List (Int × Int) :=
  if width ≤ 0 ∨ height ≤ 0 then []
  else
    let coordinates :=
      if width ≥ height then
        generate2d (width + height).toNat 0 0 width 0 0 height
      else
        generate2d (width + height).toNat 0 0 0 height width 0
    if coordinates.length = (width * height).toNat then coordinates else []

/-! ### Helper lemmas about `sgn` and truncating division -/

lemma sgn_zero : sgn 0 = 0 := rfl

lemma sgn_neg (a : Int) : sgn (-a) = -sgn a := by
  unfold sgn
  rcases lt_trichotomy a 0 with h | h | h <;>
    simp only [neg_eq_zero, neg_pos, neg_neg] <;> split_ifs <;> omega

lemma sgn_natCast {w : Nat} (hw : 1 ≤ w) : sgn (w : Int) = 1 := by
  unfold sgn
  split_ifs with h1 h2
  · omega
  · rfl
  · exact absurd (by exact_mod_cast Nat.pos_of_ne_zero (by exact_mod_cast h1)) h2

lemma tdiv_natCast_two (w : Nat) : (w : Int).tdiv 2 = ((w / 2 : Nat) : Int) := rfl

lemma neg_tdiv_two (a : Int) : (-a).tdiv 2 = -(a.tdiv 2) := Int.neg_tdiv a 2

/-! ### Equivariance of `generate2d` under transposition and point reflection -/

/-- `generate2d` commutes with swapping the roles of the two coordinate
axes (exchange `x ↔ y`, `ax ↔ ay`, `bx ↔ by`). -/
lemma generate2d_transpose (fuel : Nat) :
    ∀ x y ax ay bx b_y,
      generate2d fuel y x ay ax b_y bx =
        (generate2d fuel x y ax ay bx b_y).map Prod.swap := by
  induction fuel with
  | zero => intro x y ax ay bx b_y; simp [generate2d]
  | succ fuel ih =>
    intro x y ax ay bx b_y
    simp only [generate2d]
    rw [show ay + ax = ax + ay from add_comm _ _,
        show b_y + bx = bx + b_y from add_comm _ _,
        show ay.tdiv 2 + ax.tdiv 2 = ax.tdiv 2 + ay.tdiv 2 from add_comm _ _,
        show b_y.tdiv 2 + bx.tdiv 2 = bx.tdiv 2 + b_y.tdiv 2 from add_comm _ _]
    split_ifs <;>
      simp only [List.map_map, List.map_append] <;>
      first
        | (apply List.map_congr_left; intro i _; rfl)
        | (congr 1 <;> first | exact ih _ _ _ _ _ _ | (congr 1 <;> exact ih _ _ _ _ _ _))

lemma generate2d_congr_args {fuel : Nat} {x x' y y' ax ax' ay ay' bx bx' b_y b_y' : Int}
    (h1 : x = x') (h2 : y = y') (h3 : ax = ax') (h4 : ay = ay')
    (h5 : bx = bx') (h6 : b_y = b_y') :
    generate2d fuel x y ax ay bx b_y = generate2d fuel x' y' ax' ay' bx' b_y' := by
  subst h1 h2 h3 h4 h5 h6; rfl

/-- `generate2d` commutes with the point reflection `p ↦ -p`
(negate the origin and both direction vectors). -/
lemma generate2d_neg (fuel : Nat) :
    ∀ x y ax ay bx b_y,
      generate2d fuel (-x) (-y) (-ax) (-ay) (-bx) (-b_y) =
        (generate2d fuel x y ax ay bx b_y).map (fun p => (-p.1, -p.2)) := by
  induction fuel with
  | zero => intro x y ax ay bx b_y; simp [generate2d]
  | succ fuel ih =>
    intro x y ax ay bx b_y
    simp only [generate2d, neg_tdiv_two, sgn_neg]
    rw [show -ax + -ay = -(ax + ay) from (neg_add ax ay).symm,
        show -bx + -b_y = -(bx + b_y) from (neg_add bx b_y).symm,
        show -(ax.tdiv 2) + -(ay.tdiv 2) = -(ax.tdiv 2 + ay.tdiv 2) from (neg_add _ _).symm,
        show -(bx.tdiv 2) + -(b_y.tdiv 2) = -(bx.tdiv 2 + b_y.tdiv 2) from (neg_add _ _).symm]
    simp only [Int.natAbs_neg]
    split_ifs <;>
      first
        | (apply List.map_congr_left ?_ |>.trans (List.map_map _ _ _).symm
           intro i _
           simp only [Function.comp_apply, Prod.mk.injEq]
           constructor <;> ring)
        | (simp only [List.map_append]
           rw [← ih, ← ih]
           exact congrArg₂ (· ++ ·)
             (generate2d_congr_args (by ring) (by ring) (by ring) (by ring) (by ring) (by ring))
             (generate2d_congr_args (by ring) (by ring) (by ring) (by ring) (by ring) (by ring)))
        | (simp only [List.map_append]
           rw [← ih, ← ih, ← ih]
           exact congrArg₂ (· ++ ·)
             (generate2d_congr_args (by ring) (by ring) (by ring) (by ring) (by ring) (by ring))
             (congrArg₂ (· ++ ·)
               (generate2d_congr_args (by ring) (by ring) (by ring) (by ring) (by ring) (by ring))
               (generate2d_congr_args (by ring) (by ring) (by ring) (by ring) (by ring) (by ring))))

/-! ### Positive-orientation unfolding -/

/-- The even-length split bias of `generate2d` on a nonnegative length:
half the length, bumped by one when that half is odd and the length
exceeds 2 (the `prefer even steps` adjustment). -/
def oddAdjust (n : Nat) : Nat := if n / 2 % 2 ≠ 0 ∧ n > 2 then n / 2 + 1 else n / 2

lemma oddAdjust_ge_one {n : Nat} (hn : 2 ≤ n) : 1 ≤ oddAdjust n := by
  unfold oddAdjust; split_ifs <;> omega

lemma oddAdjust_lt {n : Nat} (hn : 2 ≤ n) : oddAdjust n < n := by
  unfold oddAdjust; split_ifs <;> omega

/-- One unfolding step of `generate2d` on a positively-oriented
axis-aligned rectangle `a = (w, 0)`, `b = (0, h)`. -/
lemma generate2d_succ_pos (fuel : Nat) (x y : Int) (w h : Nat) (hw : 1 ≤ w) (hh : 1 ≤ h) :
    generate2d (fuel+1) x y (w : Int) 0 0 (h : Int) =
      if h = 1 then (List.range w).map (fun (i : Nat) => (x + (i : Int), y))
      else if w = 1 then (List.range h).map (fun (i : Nat) => (x, y + (i : Int)))
      else if 2 * w > 3 * h then
        generate2d fuel x y (oddAdjust w : Int) 0 0 (h : Int) ++
          generate2d fuel (x + (oddAdjust w : Int)) y ((w - oddAdjust w : Nat) : Int) 0 0 (h : Int)
      else
        generate2d fuel x y 0 (oddAdjust h : Int) ((w / 2 : Nat) : Int) 0 ++
          (generate2d fuel x (y + (oddAdjust h : Int)) (w : Int) 0 0 ((h - oddAdjust h : Nat) : Int) ++
            generate2d fuel (x + ((w : Int) - 1)) (y + ((oddAdjust h : Int) - 1))
              0 (-(oddAdjust h : Int)) (-((w - w / 2 : Nat) : Int)) 0) := by
  simp only [generate2d, add_zero, zero_add, Int.natAbs_ofNat, sgn_zero, sgn_natCast hw,
    sgn_natCast hh, tdiv_natCast_two, Int.zero_tdiv, mul_one, mul_zero, sub_zero, neg_zero,
    ite_self]
  split_ifs <;>
    first
      | rfl
      | (repeat'
          first
            | (exact generate2d_congr_args
                (by first | omega | (unfold oddAdjust; split_ifs <;> omega))
                (by first | omega | (unfold oddAdjust; split_ifs <;> omega))
                (by first | omega | (unfold oddAdjust; split_ifs <;> omega))
                (by first | omega | (unfold oddAdjust; split_ifs <;> omega))
                (by first | omega | (unfold oddAdjust; split_ifs <;> omega))
                (by first | omega | (unfold oddAdjust; split_ifs <;> omega)))
            | congr 1)

/-! ### Correctness of the curve generator -/

lemma mem_map_swap (L : List (Int × Int)) (p : Int × Int) :
    p ∈ L.map Prod.swap ↔ p.swap ∈ L := by
  constructor
  · intro hp
    rcases List.mem_map.1 hp with ⟨a, ha, rfl⟩
    simpa using ha
  · intro hp
    exact List.mem_map.2 ⟨p.swap, hp, Prod.swap_swap p⟩

lemma mem_map_neg (L : List (Int × Int)) (p : Int × Int) :
    p ∈ L.map (fun q => (-q.1, -q.2)) ↔ ((-p.1, -p.2) : Int × Int) ∈ L := by
  constructor
  · intro hp
    rcases List.mem_map.1 hp with ⟨a, ha, rfl⟩
    simpa using ha
  · intro hp
    refine List.mem_map.2 ⟨(-p.1, -p.2), hp, ?_⟩
    simp

lemma negneg_injective : Function.Injective (fun q : Int × Int => (-q.1, -q.2)) := by
  intro a b hab
  have h1 : -a.1 = -b.1 := congrArg Prod.fst hab
  have h2 : -a.2 = -b.2 := congrArg Prod.snd hab
  exact Prod.ext_iff.2 ⟨by omega, by omega⟩

/-- Full correctness of `generate2d` on a positively-oriented
axis-aligned rectangle with sufficient fuel: the emitted list has
length `w * h`, has no duplicates, and its members are exactly the
cells of the rectangle `[x, x+w) × [y, y+h)`. -/
theorem generate2d_pos_spec (fuel : Nat) :
    ∀ (x y : Int) (w h : Nat), 1 ≤ w → 1 ≤ h → w + h ≤ fuel →
      (generate2d fuel x y (w : Int) 0 0 (h : Int)).length = w * h ∧
      (generate2d fuel x y (w : Int) 0 0 (h : Int)).Nodup ∧
      ∀ p : Int × Int, p ∈ generate2d fuel x y (w : Int) 0 0 (h : Int) ↔
        (x ≤ p.1 ∧ p.1 < x + (w : Int) ∧ y ≤ p.2 ∧ p.2 < y + (h : Int)) := by
  induction fuel with
  | zero => intro x y w h hw hh hf; omega
  | succ fuel ih =>
    intro x y w h hw hh hf
    rw [generate2d_succ_pos fuel x y w h hw hh]
    by_cases hh1 : h = 1
    · subst hh1
      rw [if_pos rfl]
      refine ⟨by simp, ?_, ?_⟩
      · exact (List.nodup_range w).map
          (fun a b hab => by simp only [Prod.mk.injEq] at hab; omega)
      · intro p
        simp only [List.mem_map, List.mem_range, Prod.ext_iff]
        constructor
        · rintro ⟨i, hi, h1, h2⟩
          omega
        · rintro ⟨h1, h2, h3, h4⟩
          exact ⟨(p.1 - x).toNat, by omega, by omega, by omega⟩
    · by_cases hw1 : w = 1
      · subst hw1
        rw [if_neg hh1, if_pos rfl]
        refine ⟨by simp, ?_, ?_⟩
        · exact (List.nodup_range h).map
            (fun a b hab => by simp only [Prod.mk.injEq] at hab; omega)
        · intro p
          simp only [List.mem_map, List.mem_range, Prod.ext_iff]
          constructor
          · rintro ⟨i, hi, h1, h2⟩
            omega
          · rintro ⟨h1, h2, h3, h4⟩
            exact ⟨(p.2 - y).toNat, by omega, by omega, by omega⟩
      · have hw2 : 2 ≤ w := by omega
        have hh2 : 2 ≤ h := by omega
        rw [if_neg hh1, if_neg hw1]
        by_cases hlong : 2 * w > 3 * h
        · rw [if_pos hlong]
          have hm1 := oddAdjust_ge_one hw2
          have hmw := oddAdjust_lt hw2
          obtain ⟨len1, nd1, mem1⟩ := ih x y (oddAdjust w) h hm1 hh (by omega)
          obtain ⟨len2, nd2, mem2⟩ :=
            ih (x + (oddAdjust w : Int)) y (w - oddAdjust w) h (by omega) hh (by omega)
          refine ⟨?_, ?_, ?_⟩
          · rw [List.length_append, len1, len2, ← Nat.add_mul]
            congr 1
            omega
          · refine nd1.append nd2 ?_
            intro a ha1 ha2
            rw [mem1] at ha1
            rw [mem2] at ha2
            omega
          · intro p
            rw [List.mem_append, mem1, mem2]
            omega
        · rw [if_neg hlong]
          have hk1 := oddAdjust_ge_one hh2
          have hkh := oddAdjust_lt hh2
          have hm1 : 1 ≤ w / 2 := by omega
          have hmw : w / 2 < w := by omega
          have e1 : generate2d fuel x y 0 (oddAdjust h : Int) ((w / 2 : Nat) : Int) 0 =
              (generate2d fuel y x (oddAdjust h : Int) 0 0 ((w / 2 : Nat) : Int)).map Prod.swap :=
            generate2d_transpose fuel y x (oddAdjust h : Int) 0 0 ((w / 2 : Nat) : Int)
          have e3 : generate2d fuel (x + ((w : Int) - 1)) (y + ((oddAdjust h : Int) - 1))
                0 (-(oddAdjust h : Int)) (-((w - w / 2 : Nat) : Int)) 0 =
              ((generate2d fuel (-(y + ((oddAdjust h : Int) - 1))) (-(x + ((w : Int) - 1)))
                  (oddAdjust h : Int) 0 0 ((w - w / 2 : Nat) : Int)).map
                Prod.swap).map (fun q => (-q.1, -q.2)) := by
            have step1 : generate2d fuel (x + ((w : Int) - 1)) (y + ((oddAdjust h : Int) - 1))
                  0 (-(oddAdjust h : Int)) (-((w - w / 2 : Nat) : Int)) 0 =
                generate2d fuel (-(-(x + ((w : Int) - 1)))) (-(-(y + ((oddAdjust h : Int) - 1))))
                  (-0) (-(oddAdjust h : Int)) (-((w - w / 2 : Nat) : Int)) (-0) :=
              generate2d_congr_args (by ring) (by ring) (by ring) (by ring) (by ring) (by ring)
            rw [step1,
              generate2d_neg fuel (-(x + ((w : Int) - 1))) (-(y + ((oddAdjust h : Int) - 1)))
                0 (oddAdjust h : Int) ((w - w / 2 : Nat) : Int) 0,
              generate2d_transpose fuel (-(y + ((oddAdjust h : Int) - 1)))
                (-(x + ((w : Int) - 1))) (oddAdjust h : Int) 0 0 ((w - w / 2 : Nat) : Int)]
          obtain ⟨len1, nd1, mem1⟩ := ih y x (oddAdjust h) (w / 2) hk1 hm1 (by omega)
          obtain ⟨len2, nd2, mem2⟩ :=
            ih x (y + (oddAdjust h : Int)) w (h - oddAdjust h) hw (by omega) (by omega)
          obtain ⟨len3, nd3, mem3⟩ :=
            ih (-(y + ((oddAdjust h : Int) - 1))) (-(x + ((w : Int) - 1)))
              (oddAdjust h) (w - w / 2) hk1 (by omega) (by omega)
          have m1 : ∀ p : Int × Int,
              p ∈ generate2d fuel x y 0 (oddAdjust h : Int) ((w / 2 : Nat) : Int) 0 ↔
                (x ≤ p.1 ∧ p.1 < x + ((w / 2 : Nat) : Int) ∧
                  y ≤ p.2 ∧ p.2 < y + (oddAdjust h : Int)) := by
            intro p
            rw [e1, mem_map_swap, mem1]
            simp only [Prod.fst_swap, Prod.snd_swap]
            tauto
          have m3 : ∀ p : Int × Int,
              p ∈ generate2d fuel (x + ((w : Int) - 1)) (y + ((oddAdjust h : Int) - 1))
                  0 (-(oddAdjust h : Int)) (-((w - w / 2 : Nat) : Int)) 0 ↔
                (x + ((w / 2 : Nat) : Int) ≤ p.1 ∧ p.1 < x + (w : Int) ∧
                  y ≤ p.2 ∧ p.2 < y + (oddAdjust h : Int)) := by
            intro p
            rw [e3, mem_map_neg, mem_map_swap, mem3]
            simp only [Prod.fst_swap, Prod.snd_swap]
            omega
          refine ⟨?_, ?_, ?_⟩
          · rw [List.length_append, List.length_append, e1, e3, List.length_map,
              List.length_map, List.length_map, len1, len2, len3]
            zify [Nat.div_le_self w 2, (oddAdjust_lt hh2).le]
            ring
          · have ndc1 : (generate2d fuel x y 0 (oddAdjust h : Int) ((w / 2 : Nat) : Int) 0).Nodup := by
              rw [e1]
              exact nd1.map Prod.swap_injective
            have ndc3 : (generate2d fuel (x + ((w : Int) - 1)) (y + ((oddAdjust h : Int) - 1))
                0 (-(oddAdjust h : Int)) (-((w - w / 2 : Nat) : Int)) 0).Nodup := by
              rw [e3]
              exact (nd3.map Prod.swap_injective).map negneg_injective
            refine ndc1.append (nd2.append ndc3 ?_) ?_
            · intro a ha2 ha3
              rw [mem2] at ha2
              rw [m3] at ha3
              omega
            · intro a ha1 ha23
              rw [m1] at ha1
              rw [List.mem_append, mem2, m3] at ha23
              omega
          · intro p
            rw [List.mem_append, List.mem_append, m1, mem2, m3]
            omega

/-- Correctness of `generate_mapping` for positive dimensions: the
result has length `width * height`, no duplicates, and contains exactly
the cells of `[0, width) × [0, height)`. -/
lemma generate_mapping_spec (width height : Int) (hw : 0 < width) (hh : 0 < height) :
    (generate_mapping width height).length = (width * height).toNat ∧
    (generate_mapping width height).Nodup ∧
    ∀ p : Int × Int, p ∈ generate_mapping width height ↔
      (0 ≤ p.1 ∧ p.1 < width ∧ 0 ≤ p.2 ∧ p.2 < height) := by
  have ew : ((width.toNat : Nat) : Int) = width := by omega
  have eh : ((height.toNat : Nat) : Int) = height := by omega
  simp only [generate_mapping]
  rw [if_neg (by omega : ¬(width ≤ 0 ∨ height ≤ 0))]
  by_cases hc : width ≥ height
  · rw [if_pos hc]
    obtain ⟨hlen, hnd, hmem⟩ :=
      generate2d_pos_spec ((width + height).toNat) 0 0 width.toNat height.toNat
        (by omega) (by omega) (by omega)
    rw [ew, eh] at hlen hnd hmem
    have h1 : ((width.toNat * height.toNat : Nat) : Int) = width * height := by
      push_cast
      rw [ew, eh]
    have hmul : width.toNat * height.toNat = (width * height).toNat := by omega
    rw [if_pos (by rw [hlen, hmul])]
    refine ⟨by rw [hlen, hmul], hnd, ?_⟩
    intro p
    rw [hmem p]
    omega
  · rw [if_neg hc]
    have et : generate2d ((width + height).toNat) 0 0 0 height width 0 =
        (generate2d ((width + height).toNat) 0 0 height 0 0 width).map Prod.swap :=
      generate2d_transpose _ 0 0 height 0 0 width
    obtain ⟨hlen, hnd, hmem⟩ :=
      generate2d_pos_spec ((width + height).toNat) 0 0 height.toNat width.toNat
        (by omega) (by omega) (by omega)
    rw [eh, ew] at hlen hnd hmem
    have h1 : ((height.toNat * width.toNat : Nat) : Int) = width * height := by
      push_cast
      rw [ew, eh]
      ring
    have hmul : height.toNat * width.toNat = (width * height).toNat := by omega
    rw [if_pos (by rw [et, List.length_map, hlen, hmul])]
    refine ⟨by rw [et, List.length_map, hlen, hmul], ?_, ?_⟩
    · rw [et]
      exact hnd.map Prod.swap_injective
    · intro p
      rw [et, mem_map_swap, hmem]
      simp only [Prod.fst_swap, Prod.snd_swap]
      omega

/-- C1: for every width ≥ 1 and height ≥ 1, the curve generator
returns a sequence of exactly width×height coordinates in which every
pair `(x, y)` with `0 ≤ x < width` and `0 ≤ y < height` appears exactly
once: the length is `width * height`, there are no duplicates, and
membership is exactly the in-range predicate. -/
theorem c1_curve_is_permutation (width height : Int) (hw : 0 < width) (hh : 0 < height) :
    (generate_mapping width height).length = (width * height).toNat ∧
    (generate_mapping width height).Nodup ∧
    ∀ p : Int × Int, p ∈ generate_mapping width height ↔
      (0 ≤ p.1 ∧ p.1 < width ∧ 0 ≤ p.2 ∧ p.2 < height) :=
  generate_mapping_spec width height hw hh

/-- Witness for C1 at width = 2, height = 3. -/
theorem c1_curve_is_permutation_witness :
    (0 : Int) < 2 ∧ (0 : Int) < 3 ∧
      ((generate_mapping 2 3).length = ((2 * 3 : Int)).toNat ∧
        (generate_mapping 2 3).Nodup ∧
        ∀ p : Int × Int, p ∈ generate_mapping 2 3 ↔
          (0 ≤ p.1 ∧ p.1 < 2 ∧ 0 ≤ p.2 ∧ p.2 < 3)) :=
  ⟨by decide, by decide, c1_curve_is_permutation 2 3 (by decide) (by decide)⟩

/-- C5: the recursion of `generate2d` terminates within recursion depth
`w + h` (each recursive call strictly reduces `w + h`, hence `w` or `h`):
for either initial orientation used by `generate_mapping`, any fuel
`≥ w + h` suffices and the emitted coordinate count is exactly `w * h`. -/
theorem c5_generate2d_terminates (w h : Nat) (hw : 1 ≤ w) (hh : 1 ≤ h) :
    ∀ fuel, w + h ≤ fuel → ∀ x y : Int,
      (generate2d fuel x y (w : Int) 0 0 (h : Int)).length = w * h ∧
      (generate2d fuel x y 0 (h : Int) (w : Int) 0).length = w * h := by
  intro fuel hfuel x y
  constructor
  · exact (generate2d_pos_spec fuel x y w h hw hh hfuel).1
  · rw [generate2d_transpose fuel y x (h : Int) 0 0 (w : Int), List.length_map,
      (generate2d_pos_spec fuel y x h w hh hw (by omega)).1]
    exact Nat.mul_comm h w

/-- Witness for C5 at w = 5, h = 2, fuel = 7, origin (0, 0). -/
theorem c5_generate2d_terminates_witness :
    1 ≤ 5 ∧ 1 ≤ 2 ∧ 5 + 2 ≤ 7 ∧
      ((generate2d 7 0 0 ((5 : Nat) : Int) 0 0 ((2 : Nat) : Int)).length = 5 * 2 ∧
        (generate2d 7 0 0 0 ((2 : Nat) : Int) ((5 : Nat) : Int) 0).length = 5 * 2) :=
  ⟨by decide, by decide, by decide,
    c5_generate2d_terminates 5 2 (by decide) (by decide) 7 (by decide) 0 0⟩

/-- C6: for non-positive width or height, curve generation fails
(the code logs an InvalidDimensions error and returns an empty vector):
`generate_mapping` returns no coordinates at all. -/
theorem c6_invalid_dimensions (width height : Int) (h : width ≤ 0 ∨ height ≤ 0) :
    generate_mapping width height = [] := by
  simp only [generate_mapping]
  rw [if_pos h]

/-- Witness for C6 at width = -1, height = 5. -/
theorem c6_invalid_dimensions_witness :
    ((-1 : Int) ≤ 0 ∨ (5 : Int) ≤ 0) ∧ generate_mapping (-1) 5 = [] :=
  ⟨by decide, c6_invalid_dimensions (-1) 5 (by decide)⟩

/-! ### The permutation engine -/

/-- OpenCV depth code for 8-bit unsigned pixels (`CV_8U = 0`). -/
def CV_8U : Int := 0

/-- OpenCV depth code for 16-bit unsigned pixels (`CV_16U = 2`). -/
def CV_16U : Int := 2

/-- A pixel buffer: a map from integer coordinates `(x, y)` to the list
of channel values of the pixel stored there.  Channel values (`uchar` /
`ushort`) are unsigned, modelled as `Nat`; `Mat::at<T>(y, x)` access
becomes application at `(x, y)`. -/
def Buf := (Int × Int) → List Nat

/-- The zero-initialised output image `Mat(img.size(), img.type(),
Scalar(0))` of hilbert_encrypt.cpp line 348: every channel of every
pixel is zero. -/
def zeroPixel (channels : Int) : List Nat := List.replicate channels.toNat 0

/-- The index computation of `copy_pixels` (hilbert_encrypt.cpp lines
196–200): the returned pair is `(src_idx, dest_idx)`; in encrypt
(Scramble) direction it is `(i, (i + offset) % total)`, otherwise
`((i + offset) % total, i)`.  C++ `%` is the truncated remainder
`Int.tmod`. -/
def get_indices (offset total : Int) (i : Int) (encrypt : Bool) : Int × Int :=
  if encrypt then (i, (i + offset).tmod total) else ((i + offset).tmod total, i)

/-- One iteration of the pixel-copy loop (lines 207–233): dispatch on
depth (`CV_8U` / `CV_16U`) and channel count (1 / 3 / 4); every
supported combination copies the whole pixel value (all channels) from
`src` at `src_p` into the destination buffer at `dest_p`; any other
combination copies nothing. -/
def copyStep (channels depth : Int) (src : Buf) (dst : Buf) (src_p dest_p : Int × Int) : Buf :=
  if depth = CV_8U then
    if channels = 1 then Function.update dst dest_p (src src_p)
    else if channels = 3 then Function.update dst dest_p (src src_p)
    else if channels = 4 then Function.update dst dest_p (src src_p)
    else dst
  else if depth = CV_16U then
    if channels = 1 then Function.update dst dest_p (src src_p)
    else if channels = 3 then Function.update dst dest_p (src src_p)
    else if channels = 4 then Function.update dst dest_p (src src_p)
    else dst
  else dst

/-- `copy_pixels` (lines 182–256): for every loop index `i` from `0` to
`total - 1`, copy the pixel at `curve[src_idx]` of the source buffer to
`curve[dest_idx]` of the destination buffer, the index pair given by
`get_indices`.  Progress logging is omitted. -/
def copy_pixels (src : Buf) (dst : Buf) (curve : List (Int × Int))
    (total offset : Int) (is_encrypt : Bool) (channels depth : Int) : Buf :=
  (List.range total.toNat).foldl
    (fun d (i : Nat) =>
      let idx := get_indices offset total (i : Int) is_encrypt
      copyStep channels depth src d
        (curve.getD idx.1.toNat (0, 0)) (curve.getD idx.2.toNat (0, 0)))
    dst

/-- The golden-ratio offset computed at lines 352–353:
`offset = round((sqrt(5) - 1) / 2 * total)` — with no further reduction.
The C++ evaluates this in `double` precision; it is modelled here in
exact real arithmetic.  The exact value of `round(((√5 − 1)/2) · n)` is
`(Nat.sqrt (5·n·n) − n + 1) / 2`, proved in `offsetOf_eq_round` below,
and that integer form is taken as the executable definition. -/
def offsetOf (total : Nat) : Nat := (Nat.sqrt (5 * total * total) - total + 1) / 2

/-- The cells of the image rectangle, row by row (the pixels summed by
`cv::sum`). -/
def rect_points (width height : Int) : List (Int × Int) :=
  (List.range height.toNat).flatMap
    (fun yy => (List.range width.toNat).map (fun xx => ((xx : Int), (yy : Int))))

/-- The all-zero test on `cv::sum(output_img)` (lines 362–366): the four
per-channel sums are all zero iff the total of every channel value of
every pixel in the rectangle is zero (channel values are unsigned, so
no cancellation can occur). -/
def output_sum (width height : Int) (buf : Buf) : Nat :=
  ((rect_points width height).map (fun p => (buf p).sum)).sum

/-- The validation and permutation pipeline of `process_image`
(lines 306–366), with the curve as an explicit argument: channel-count
check (lines 311–314), depth check (lines 317–320), empty-curve and
curve-length checks (lines 326–337), coordinate-bounds check
(lines 340–345), zero-initialised output (line 348), golden-ratio
offset (lines 352–353), pixel copy (line 355), and the all-zero
integrity check (lines 362–366).  `none` models an error return before
any output is produced; image decoding, encoding and logging are
outside this model. -/
def apply_permutation (width height channels depth : Int) (curve : List (Int × Int))
    (img : Buf) (is_encrypt : Bool) : Option Buf :=
  if ¬(channels = 1 ∨ channels = 3 ∨ channels = 4) then none
  else if ¬(depth = CV_8U ∨ depth = CV_16U) then none
  else if curve = [] then none
  else if ¬((curve.length : Int) = width * height) then none
  else if ¬(∀ p ∈ curve, 0 ≤ p.1 ∧ p.1 < width ∧ 0 ≤ p.2 ∧ p.2 < height) then none
  else
    let total : Int := width * height
    let offset : Int := (offsetOf total.toNat : Int)
    let output_img :=
      copy_pixels img (fun _ => zeroPixel channels) curve total offset is_encrypt channels depth
    if output_sum width height output_img = 0 then none
    else some output_img

/-- `process_image` on a decoded image: generate the curve for the
image's dimensions and run the validation/permutation pipeline. -/
def process_image (width height channels depth : Int) (img : Buf) (is_encrypt : Bool) :
    Option Buf :=
  apply_permutation width height channels depth (generate_mapping width height) img is_encrypt

/-! ### Generic lemmas about loops of pointwise updates -/

lemma foldl_update_of_injective {β α : Type} [DecidableEq β] (T : Nat)
    (f : Nat → β) (v : Nat → α)
    (hf : ∀ i j, i < T → j < T → f i = f j → i = j) (d0 : β → α) :
    ∀ i, i < T →
      ((List.range T).foldl (fun d j => Function.update d (f j) (v j)) d0) (f i) = v i := by
  induction T with
  | zero => intro i hi; omega
  | succ T ih =>
    intro i hi
    rw [List.range_succ, List.foldl_append, List.foldl_cons, List.foldl_nil]
    by_cases hiT : i = T
    · subst hiT
      rw [Function.update_same]
    · have hne : f i ≠ f T := fun e => hiT (hf i T (by omega) (by omega) e)
      rw [Function.update_noteq hne]
      exact ih (fun a b ha hb e => hf a b (by omega) (by omega) e) i (by omega)

lemma foldl_update_mem_or {β α : Type} [DecidableEq β] (T : Nat)
    (f : Nat → β) (v : Nat → α) (d0 : β → α) (p : β) :
    ((List.range T).foldl (fun d j => Function.update d (f j) (v j)) d0) p = d0 p ∨
      ∃ i, i < T ∧
        ((List.range T).foldl (fun d j => Function.update d (f j) (v j)) d0) p = v i := by
  induction T with
  | zero => left; simp
  | succ T ih =>
    rw [List.range_succ, List.foldl_append, List.foldl_cons, List.foldl_nil]
    by_cases hp : f T = p
    · right
      refine ⟨T, by omega, ?_⟩
      rw [← hp, Function.update_same]
    · rw [Function.update_noteq (fun e => hp e.symm)]
      rcases ih with h | ⟨i, hi, h⟩
      · exact Or.inl h
      · exact Or.inr ⟨i, by omega, h⟩

/-! ### The copy loop as a loop of pointwise updates -/

lemma copyStep_supported {channels depth : Int}
    (hd : depth = CV_8U ∨ depth = CV_16U)
    (hc : channels = 1 ∨ channels = 3 ∨ channels = 4)
    (src dst : Buf) (src_p dest_p : Int × Int) :
    copyStep channels depth src dst src_p dest_p = Function.update dst dest_p (src src_p) := by
  rcases hd with rfl | rfl <;> rcases hc with rfl | rfl | rfl <;>
    simp [copyStep, CV_8U, CV_16U]

lemma tmod_toNat_cast (i : Nat) (offset total : Int) (ho : 0 ≤ offset) (ht : 0 < total) :
    ((i : Int) + offset).tmod total = (((i + offset.toNat) % total.toNat : Nat) : Int) := by
  have h1 : (i : Int) + offset = ((i + offset.toNat : Nat) : Int) := by push_cast; omega
  have h2 : total = ((total.toNat : Nat) : Int) := by omega
  rw [h1, h2]
  rfl

lemma nodup_getD_inj {l : List (Int × Int)} (hnd : l.Nodup) {i j : Nat}
    (hi : i < l.length) (hj : j < l.length)
    (h : l.getD i (0, 0) = l.getD j (0, 0)) : i = j := by
  rw [List.getD_eq_getElem l _ hi, List.getD_eq_getElem l _ hj] at h
  exact (List.Nodup.getElem_inj_iff hnd).1 h

lemma dest_index_inj (T o : Nat) {i j : Nat} (hi : i < T) (hj : j < T)
    (h : (i + o) % T = (j + o) % T) : i = j := by
  have h' : i % T = j % T := Nat.ModEq.add_right_cancel' o h
  rwa [Nat.mod_eq_of_lt hi, Nat.mod_eq_of_lt hj] at h'

lemma dest_index_surj (T o : Nat) (hT : 0 < T) (j : Nat) (hj : j < T) :
    ∃ i, i < T ∧ (i + o) % T = j := by
  refine ⟨(j + (T - o % T)) % T, Nat.mod_lt _ hT, ?_⟩
  rw [Nat.mod_add_mod]
  obtain ⟨k, hk⟩ : ∃ k, o = o % T + T * k := ⟨o / T, (Nat.mod_add_div o T).symm⟩
  have hoT : o % T < T := Nat.mod_lt o hT
  have he : j + (T - o % T) + o = j + T * (k + 1) := by
    have ht2 : T * (k + 1) = T * k + T := by ring
    omega
  rw [he, Nat.add_mul_mod_self_left, Nat.mod_eq_of_lt hj]

/-- Under a supported format, `copy_pixels` is the loop that, at step
`i`, overwrites the destination pixel at `curve[dest_idx i]` with the
source pixel at `curve[src_idx i]`. -/
lemma copy_pixels_eq_foldl (src dst : Buf) (curve : List (Int × Int))
    (total offset : Int) (enc : Bool) {channels depth : Int}
    (hd : depth = CV_8U ∨ depth = CV_16U)
    (hc : channels = 1 ∨ channels = 3 ∨ channels = 4) :
    copy_pixels src dst curve total offset enc channels depth =
      (List.range total.toNat).foldl
        (fun d (j : Nat) =>
          Function.update d
            (curve.getD ((get_indices offset total (j : Int) enc).2).toNat (0, 0))
            (src (curve.getD ((get_indices offset total (j : Int) enc).1).toNat (0, 0))))
        dst := by
  unfold copy_pixels
  exact List.foldl_ext _ _ dst
    (fun d j _ => copyStep_supported hd hc src d _ _)

/-- Final value of the Scramble pass: the pixel written at
`curve[(i + offset) % total]` is the source pixel at `curve[i]`, for
any loop index `i < total`, provided the curve has no duplicates and
has length `total`. -/
lemma copy_pixels_encrypt_at (src dst : Buf) (curve : List (Int × Int))
    (total offset : Int) {channels depth : Int}
    (hd : depth = CV_8U ∨ depth = CV_16U)
    (hc : channels = 1 ∨ channels = 3 ∨ channels = 4)
    (ht : 0 < total) (ho : 0 ≤ offset)
    (hlen : (curve.length : Int) = total) (hnd : curve.Nodup)
    (i : Nat) (hi : i < total.toNat) :
    copy_pixels src dst curve total offset true channels depth
        (curve.getD ((i + offset.toNat) % total.toNat) (0, 0)) =
      src (curve.getD i (0, 0)) := by
  rw [copy_pixels_eq_foldl src dst curve total offset true hd hc]
  have hlenN : curve.length = total.toNat := by omega
  have hidx : ∀ j : Nat,
      ((get_indices offset total (j : Int) true).2).toNat = (j + offset.toNat) % total.toNat := by
    intro j
    show (((j : Int) + offset).tmod total).toNat = _
    rw [tmod_toNat_cast j offset total ho ht, Int.toNat_natCast]
  have hsrc : ∀ j : Nat, ((get_indices offset total (j : Int) true).1).toNat = j := by
    intro j
    show ((j : Int)).toNat = j
    exact Int.toNat_natCast j
  simp only [hidx, hsrc]
  exact foldl_update_of_injective total.toNat
    (fun j => curve.getD ((j + offset.toNat) % total.toNat) (0, 0))
    (fun j => src (curve.getD j (0, 0)))
    (fun a b ha hb e =>
      dest_index_inj total.toNat offset.toNat ha hb
        (nodup_getD_inj hnd
          (by rw [hlenN]; exact Nat.mod_lt _ (by omega))
          (by rw [hlenN]; exact Nat.mod_lt _ (by omega)) e))
    dst i hi

/-- Final value of the Unscramble pass: the pixel written at `curve[i]`
is the source pixel at `curve[(i + offset) % total]`, for any loop
index `i < total`, provided the curve has no duplicates and has length
`total`. -/
lemma copy_pixels_decrypt_at (src dst : Buf) (curve : List (Int × Int))
    (total offset : Int) {channels depth : Int}
    (hd : depth = CV_8U ∨ depth = CV_16U)
    (hc : channels = 1 ∨ channels = 3 ∨ channels = 4)
    (ht : 0 < total) (ho : 0 ≤ offset)
    (hlen : (curve.length : Int) = total) (hnd : curve.Nodup)
    (i : Nat) (hi : i < total.toNat) :
    copy_pixels src dst curve total offset false channels depth
        (curve.getD i (0, 0)) =
      src (curve.getD ((i + offset.toNat) % total.toNat) (0, 0)) := by
  rw [copy_pixels_eq_foldl src dst curve total offset false hd hc]
  have hlenN : curve.length = total.toNat := by omega
  have hidx : ∀ j : Nat,
      ((get_indices offset total (j : Int) false).1).toNat = (j + offset.toNat) % total.toNat := by
    intro j
    show (((j : Int) + offset).tmod total).toNat = _
    rw [tmod_toNat_cast j offset total ho ht, Int.toNat_natCast]
  have hdst : ∀ j : Nat, ((get_indices offset total (j : Int) false).2).toNat = j := by
    intro j
    show ((j : Int)).toNat = j
    exact Int.toNat_natCast j
  simp only [hidx, hdst]
  exact foldl_update_of_injective total.toNat
    (fun j => curve.getD j (0, 0))
    (fun j => src (curve.getD ((j + offset.toNat) % total.toNat) (0, 0)))
    (fun a b ha hb e =>
      nodup_getD_inj hnd (by omega) (by omega) e)
    dst i hi

/-- C2: for every shape, every valid curve for that shape (right length,
no duplicates, covering the rectangle), and every pixel buffer, with a
supported format (channels in {1,3,4}, depth CV_8U or CV_16U), applying
the permutation in direction Scramble and then Unscramble — with the
same curve and the offset derived from `total = width*height` — restores
the original buffer at every pixel of the image; and likewise with the
two directions swapped. -/
theorem c2_scramble_unscramble_roundtrip
    (width height channels depth : Int) (curve : List (Int × Int)) (img : Buf)
    (hw : 0 < width) (hh : 0 < height)
    (hd : depth = CV_8U ∨ depth = CV_16U)
    (hc : channels = 1 ∨ channels = 3 ∨ channels = 4)
    (hlen : (curve.length : Int) = width * height)
    (hnd : curve.Nodup)
    (hcov : ∀ p : Int × Int, (0 ≤ p.1 ∧ p.1 < width ∧ 0 ≤ p.2 ∧ p.2 < height) → p ∈ curve) :
    ∀ p : Int × Int, (0 ≤ p.1 ∧ p.1 < width ∧ 0 ≤ p.2 ∧ p.2 < height) →
      copy_pixels
          (copy_pixels img (fun _ => zeroPixel channels) curve (width * height)
            ((offsetOf (width * height).toNat : Nat) : Int) true channels depth)
          (fun _ => zeroPixel channels) curve (width * height)
          ((offsetOf (width * height).toNat : Nat) : Int) false channels depth p = img p ∧
      copy_pixels
          (copy_pixels img (fun _ => zeroPixel channels) curve (width * height)
            ((offsetOf (width * height).toNat : Nat) : Int) false channels depth)
          (fun _ => zeroPixel channels) curve (width * height)
          ((offsetOf (width * height).toNat : Nat) : Int) true channels depth p = img p := by
  intro p hp
  have ht : 0 < width * height := mul_pos hw hh
  have ho : (0 : Int) ≤ ((offsetOf (width * height).toNat : Nat) : Int) := Int.natCast_nonneg _
  obtain ⟨i, hilt, hig⟩ := List.mem_iff_getElem.1 (hcov p hp)
  have hgetD : curve.getD i (0, 0) = p := by
    rw [List.getD_eq_getElem curve _ hilt, hig]
  have hiT : i < (width * height).toNat := by omega
  constructor
  · rw [← hgetD,
      copy_pixels_decrypt_at _ _ curve (width * height) _ hd hc ht ho hlen hnd i hiT,
      copy_pixels_encrypt_at img _ curve (width * height) _ hd hc ht ho hlen hnd i hiT]
  · obtain ⟨j, hjT, hj⟩ :=
      dest_index_surj (width * height).toNat
        ((offsetOf (width * height).toNat : Nat) : Int).toNat (by omega) i hiT
    rw [← hgetD, ← hj,
      copy_pixels_encrypt_at _ _ curve (width * height) _ hd hc ht ho hlen hnd j hjT,
      copy_pixels_decrypt_at img _ curve (width * height) _ hd hc ht ho hlen hnd j hjT]

/-- Witness for C2 at width = height = 1 with the one-point curve and a
constant one-pixel image. -/
theorem c2_scramble_unscramble_roundtrip_witness :
    ((0 : Int) < 1 ∧ (0 : Int) < 1 ∧
      (((0 : Int) = CV_8U ∨ (0 : Int) = CV_16U)) ∧
      ((1 : Int) = 1 ∨ (1 : Int) = 3 ∨ (1 : Int) = 4) ∧
      ((([((0 : Int), (0 : Int))].length : Int) = 1 * 1)) ∧
      ([((0 : Int), (0 : Int))] : List (Int × Int)).Nodup ∧
      ((0 : Int) ≤ (0 : Int) ∧ (0 : Int) < 1 ∧ (0 : Int) ≤ (0 : Int) ∧ (0 : Int) < 1)) ∧
    (copy_pixels
        (copy_pixels (fun _ => [5]) (fun _ => zeroPixel 1) [((0 : Int), (0 : Int))] (1 * 1)
          ((offsetOf ((1 * 1 : Int)).toNat : Nat) : Int) true 1 0)
        (fun _ => zeroPixel 1) [((0 : Int), (0 : Int))] (1 * 1)
        ((offsetOf ((1 * 1 : Int)).toNat : Nat) : Int) false 1 0 (0, 0) = (fun _ => [5]) ((0 : Int), (0 : Int)) ∧
      copy_pixels
        (copy_pixels (fun _ => [5]) (fun _ => zeroPixel 1) [((0 : Int), (0 : Int))] (1 * 1)
          ((offsetOf ((1 * 1 : Int)).toNat : Nat) : Int) false 1 0)
        (fun _ => zeroPixel 1) [((0 : Int), (0 : Int))] (1 * 1)
        ((offsetOf ((1 * 1 : Int)).toNat : Nat) : Int) true 1 0 (0, 0) = (fun _ => [5]) ((0 : Int), (0 : Int))) :=
  ⟨⟨by decide, by decide, by decide, by decide, by decide, by decide, by decide⟩,
    c2_scramble_unscramble_roundtrip 1 1 1 0 [((0 : Int), (0 : Int))] (fun _ => [5])
      (by decide) (by decide) (by decide) (by decide) (by decide) (by decide)
      (by
        rintro p ⟨h1, h2, h3, h4⟩
        rw [List.mem_singleton, Prod.ext_iff]
        exact ⟨by omega, by omega⟩)
      (0, 0) (by decide)⟩

/-- C4: for every loop index `i` in `[0, total)`: in direction Scramble
the pixel at `curve[i]` of the source buffer ends up at
`curve[(i + offset) % total]` of the destination, and in direction
Unscramble the pixel at `curve[(i + offset) % total]` of the source ends
up at `curve[i]` of the destination; the whole pixel value (all
channels) is copied. -/
theorem c4_per_index_copy (src dst : Buf) (curve : List (Int × Int))
    (total offset channels depth : Int)
    (hd : depth = CV_8U ∨ depth = CV_16U)
    (hc : channels = 1 ∨ channels = 3 ∨ channels = 4)
    (ht : 0 < total) (ho : 0 ≤ offset)
    (hlen : (curve.length : Int) = total) (hnd : curve.Nodup)
    (i : Nat) (hi : i < total.toNat) :
    copy_pixels src dst curve total offset true channels depth
        (curve.getD (((i : Int) + offset).tmod total).toNat (0, 0)) =
      src (curve.getD i (0, 0)) ∧
    copy_pixels src dst curve total offset false channels depth
        (curve.getD i (0, 0)) =
      src (curve.getD (((i : Int) + offset).tmod total).toNat (0, 0)) := by
  have e : (((i : Int) + offset).tmod total).toNat = (i + offset.toNat) % total.toNat := by
    rw [tmod_toNat_cast i offset total ho ht, Int.toNat_natCast]
  rw [e]
  exact ⟨copy_pixels_encrypt_at src dst curve total offset hd hc ht ho hlen hnd i hi,
    copy_pixels_decrypt_at src dst curve total offset hd hc ht ho hlen hnd i hi⟩

/-- Witness for C4: two-point curve, total = 2, offset = 1, index 0. -/
theorem c4_per_index_copy_witness :
    (((0 : Int) = CV_8U ∨ (0 : Int) = CV_16U) ∧
      ((3 : Int) = 1 ∨ (3 : Int) = 3 ∨ (3 : Int) = 4) ∧
      (0 : Int) < 2 ∧ (0 : Int) ≤ 1 ∧
      (([((0 : Int), (0 : Int)), (1, 0)].length : Int) = 2) ∧
      ([((0 : Int), (0 : Int)), (1, 0)] : List (Int × Int)).Nodup ∧ 0 < (2 : Int).toNat) ∧
    (copy_pixels (fun p => [p.1.toNat]) (fun _ => zeroPixel 3)
        [((0 : Int), (0 : Int)), (1, 0)] 2 1 true 3 0
        ([((0 : Int), (0 : Int)), (1, 0)].getD ((((0 : Nat) : Int) + 1).tmod 2).toNat (0, 0)) =
      (fun p : Int × Int => [p.1.toNat]) ([((0 : Int), (0 : Int)), (1, 0)].getD 0 (0, 0)) ∧
    copy_pixels (fun p => [p.1.toNat]) (fun _ => zeroPixel 3)
        [((0 : Int), (0 : Int)), (1, 0)] 2 1 false 3 0
        ([((0 : Int), (0 : Int)), (1, 0)].getD 0 (0, 0)) =
      (fun p : Int × Int => [p.1.toNat])
        ([((0 : Int), (0 : Int)), (1, 0)].getD ((((0 : Nat) : Int) + 1).tmod 2).toNat (0, 0))) :=
  ⟨⟨by decide, by decide, by decide, by decide, by decide, by decide, by decide⟩,
    c4_per_index_copy (fun p => [p.1.toNat]) (fun _ => zeroPixel 3)
      [((0 : Int), (0 : Int)), (1, 0)] 2 1 3 0
      (by decide) (by decide) (by decide) (by decide) (by decide) (by decide) 0 (by decide)⟩

/-- C9 (implicit): for every curve length `total ≥ 1`, nonnegative
offset, direction, and loop index `i ∈ [0, total)`, both curve indices
produced by `get_indices` lie in `[0, total)` (every curve access in
the copy loop is in bounds); moreover `i ↦ (i + offset) % total` is
injective and surjective on `[0, total)`, so every destination cell is
written exactly once. -/
theorem c9_curve_index_safety (total offset : Int) (ht : 1 ≤ total) (ho : 0 ≤ offset) :
    (∀ (i : Int) (enc : Bool), 0 ≤ i → i < total →
      0 ≤ (get_indices offset total i enc).1 ∧ (get_indices offset total i enc).1 < total ∧
        0 ≤ (get_indices offset total i enc).2 ∧ (get_indices offset total i enc).2 < total) ∧
    (∀ i j : Int, 0 ≤ i → i < total → 0 ≤ j → j < total →
      (get_indices offset total i true).2 = (get_indices offset total j true).2 → i = j) ∧
    (∀ k : Int, 0 ≤ k → k < total → ∃ i : Int, 0 ≤ i ∧ i < total ∧
      (get_indices offset total i true).2 = k) := by
  have key : ∀ i : Int, 0 ≤ i →
      (i + offset).tmod total = (((i.toNat + offset.toNat) % total.toNat : Nat) : Int) := by
    intro i hi
    rw [show i = ((i.toNat : Nat) : Int) from by omega]
    rw [show (((i.toNat : Nat) : Int).toNat + offset.toNat) % total.toNat
        = (i.toNat + offset.toNat) % total.toNat from by rw [Int.toNat_natCast]]
    exact tmod_toNat_cast i.toNat offset total ho (by omega)
  refine ⟨?_, ?_, ?_⟩
  · intro i enc h1 h2
    have hb := key i h1
    have hlt : (i.toNat + offset.toNat) % total.toNat < total.toNat :=
      Nat.mod_lt _ (by omega)
    cases enc <;> simp only [get_indices, Bool.false_eq_true, if_false, if_true] <;> omega
  · intro i j h1 h2 h3 h4 h
    have hi' := key i h1
    have hj' := key j h3
    simp only [get_indices, if_true] at h
    rw [hi', hj'] at h
    have hN : (i.toNat + offset.toNat) % total.toNat = (j.toNat + offset.toNat) % total.toNat :=
      Int.natCast_inj.mp h
    have := dest_index_inj total.toNat offset.toNat
      (show i.toNat < total.toNat by omega) (show j.toNat < total.toNat by omega) hN
    omega
  · intro k hk1 hk2
    obtain ⟨i, hiT, hi⟩ :=
      dest_index_surj total.toNat offset.toNat (by omega) k.toNat (by omega)
    refine ⟨(i : Int), by omega, by omega, ?_⟩
    show ((i : Int) + offset).tmod total = k
    rw [tmod_toNat_cast i offset total ho (by omega), hi]
    omega

/-- Witness for C9 at total = 3, offset = 2. -/
theorem c9_curve_index_safety_witness :
    ((1 : Int) ≤ 3 ∧ (0 : Int) ≤ 2) ∧
    ((∀ (i : Int) (enc : Bool), 0 ≤ i → i < 3 →
      0 ≤ (get_indices 2 3 i enc).1 ∧ (get_indices 2 3 i enc).1 < 3 ∧
        0 ≤ (get_indices 2 3 i enc).2 ∧ (get_indices 2 3 i enc).2 < 3) ∧
    (∀ i j : Int, 0 ≤ i → i < 3 → 0 ≤ j → j < 3 →
      (get_indices 2 3 i true).2 = (get_indices 2 3 j true).2 → i = j) ∧
    (∀ k : Int, 0 ≤ k → k < 3 → ∃ i : Int, 0 ≤ i ∧ i < 3 ∧
      (get_indices 2 3 i true).2 = k)) :=
  ⟨⟨by decide, by decide⟩, c9_curve_index_safety 3 2 (by decide) (by decide)⟩

/-- C7: an unsupported channel count (not 1, 3 or 4), an unsupported
depth code (not CV_8U or CV_16U), or a curve whose length differs from
width×height makes the permutation call fail (return `none`) before any
pixel copy occurs. -/
theorem c7_unsupported_format (width height channels depth : Int) (curve : List (Int × Int))
    (img : Buf) (enc : Bool)
    (hbad : ¬(channels = 1 ∨ channels = 3 ∨ channels = 4) ∨
      ¬(depth = CV_8U ∨ depth = CV_16U) ∨ (curve.length : Int) ≠ width * height) :
    apply_permutation width height channels depth curve img enc = none := by
  simp only [apply_permutation]
  rcases hbad with hb | hb | hb
  · rw [if_pos hb]
  · by_cases h1 : ¬(channels = 1 ∨ channels = 3 ∨ channels = 4)
    · rw [if_pos h1]
    · rw [if_neg h1, if_pos hb]
  · by_cases h1 : ¬(channels = 1 ∨ channels = 3 ∨ channels = 4)
    · rw [if_pos h1]
    · rw [if_neg h1]
      by_cases h2 : ¬(depth = CV_8U ∨ depth = CV_16U)
      · rw [if_pos h2]
      · rw [if_neg h2]
        by_cases h3 : curve = []
        · rw [if_pos h3]
        · rw [if_neg h3, if_pos hb]

/-- Witness for C7: a two-channel buffer is rejected. -/
theorem c7_unsupported_format_witness :
    (¬((2 : Int) = 1 ∨ (2 : Int) = 3 ∨ (2 : Int) = 4) ∨
      ¬((0 : Int) = CV_8U ∨ (0 : Int) = CV_16U) ∨
      ([((0 : Int), (0 : Int))].length : Int) ≠ 1 * 1) ∧
    apply_permutation 1 1 2 0 [((0 : Int), (0 : Int))] (fun _ => [1]) true = none :=
  ⟨Or.inl (by decide),
    c7_unsupported_format 1 1 2 0 [((0 : Int), (0 : Int))] (fun _ => [1]) true
      (Or.inl (by decide))⟩

lemma sqrt_eq_of (m s : Nat) (h1 : s * s ≤ m) (h2 : m < (s + 1) ^ 2) : Nat.sqrt m = s := by
  have ha : s ≤ Nat.sqrt m := Nat.le_sqrt.mpr h1
  have hb : Nat.sqrt m < s + 1 := Nat.sqrt_lt'.mpr h2
  omega

/-- C8: for width 2 and height 1 the generated curve is exactly
`[(0,0), (1,0)]`, total = 2, the computed offset is `round(0.618×2) = 1`,
and Scramble moves the pixel at `curve[0]` to `curve[1]` and the pixel
at `curve[1]` to `curve[0]` — the two pixels are swapped. -/
theorem c8_width2_height1 (src : Buf) :
    generate_mapping 2 1 = [((0 : Int), (0 : Int)), (1, 0)] ∧
    offsetOf 2 = 1 ∧
    ∀ channels depth : Int,
      (depth = CV_8U ∨ depth = CV_16U) →
      (channels = 1 ∨ channels = 3 ∨ channels = 4) →
      (copy_pixels src (fun _ => zeroPixel channels) [((0 : Int), (0 : Int)), (1, 0)] 2 1
          true channels depth (1, 0) = src (0, 0) ∧
        copy_pixels src (fun _ => zeroPixel channels) [((0 : Int), (0 : Int)), (1, 0)] 2 1
          true channels depth (0, 0) = src (1, 0)) := by
  refine ⟨by decide, ?_, ?_⟩
  · unfold offsetOf
    rw [sqrt_eq_of (5 * 2 * 2) 4 (by norm_num) (by norm_num)]
  · intro channels depth hd hc
    have h0 := copy_pixels_encrypt_at src (fun _ => zeroPixel channels)
      [((0 : Int), (0 : Int)), (1, 0)] 2 1 hd hc (by decide) (by decide) (by decide) (by decide)
      0 (by decide)
    have h1 := copy_pixels_encrypt_at src (fun _ => zeroPixel channels)
      [((0 : Int), (0 : Int)), (1, 0)] 2 1 hd hc (by decide) (by decide) (by decide) (by decide)
      1 (by decide)
    exact ⟨by simpa using h0, by simpa using h1⟩

/-- Witness for C8 with a concrete source buffer, channels = 1,
depth = CV_8U. -/
theorem c8_width2_height1_witness :
    (((0 : Int) = CV_8U ∨ (0 : Int) = CV_16U) ∧
      ((1 : Int) = 1 ∨ (1 : Int) = 3 ∨ (1 : Int) = 4)) ∧
    (generate_mapping 2 1 = [((0 : Int), (0 : Int)), (1, 0)] ∧
      offsetOf 2 = 1 ∧
      (copy_pixels (fun p => [p.1.toNat]) (fun _ => zeroPixel 1)
          [((0 : Int), (0 : Int)), (1, 0)] 2 1 true 1 0 (1, 0) =
        (fun p : Int × Int => [p.1.toNat]) (0, 0) ∧
        copy_pixels (fun p => [p.1.toNat]) (fun _ => zeroPixel 1)
          [((0 : Int), (0 : Int)), (1, 0)] 2 1 true 1 0 (0, 0) =
        (fun p : Int × Int => [p.1.toNat]) (1, 0))) :=
  ⟨⟨by decide, by decide⟩,
    (c8_width2_height1 (fun p => [p.1.toNat])).1,
    (c8_width2_height1 (fun p => [p.1.toNat])).2.1,
    (c8_width2_height1 (fun p => [p.1.toNat])).2.2 1 0 (by decide) (by decide)⟩

/-- C10 (implicit): the post-permutation integrity check compares the
output image against all-zero without consulting the source buffer, so
a supported, fully black input image (every channel of every pixel
zero) is reported as an integrity failure: `process_image` returns no
output even though the permutation itself was applied correctly. -/
theorem c10_black_image_rejected (width height channels depth : Int) (img : Buf) (enc : Bool)
    (hw : 0 < width) (hh : 0 < height)
    (hc : channels = 1 ∨ channels = 3 ∨ channels = 4)
    (hd : depth = CV_8U ∨ depth = CV_16U)
    (hblack : ∀ p : Int × Int, img p = zeroPixel channels) :
    process_image width height channels depth img enc = none := by
  obtain ⟨hlen, hnd, hmem⟩ := generate_mapping_spec width height hw hh
  have htot : 0 < width * height := mul_pos hw hh
  simp only [process_image, apply_permutation]
  rw [if_neg (not_not_intro hc), if_neg (not_not_intro hd)]
  have hne : ¬(generate_mapping width height = []) := by
    intro e
    rw [e] at hlen
    simp only [List.length_nil] at hlen
    omega
  rw [if_neg hne]
  have hlenInt : ((generate_mapping width height).length : Int) = width * height := by
    rw [hlen]
    omega
  rw [if_neg (not_not_intro hlenInt)]
  have hbounds : ∀ p ∈ generate_mapping width height,
      0 ≤ p.1 ∧ p.1 < width ∧ 0 ≤ p.2 ∧ p.2 < height := fun p hp => (hmem p).1 hp
  rw [if_neg (not_not_intro hbounds)]
  have hzero : output_sum width height
      (copy_pixels img (fun _ => zeroPixel channels) (generate_mapping width height)
        (width * height) ((offsetOf (width * height).toNat : Nat) : Int)
        enc channels depth) = 0 := by
    rw [copy_pixels_eq_foldl _ _ _ _ _ _ hd hc]
    unfold output_sum
    apply List.sum_eq_zero
    intro x hx
    obtain ⟨p, hp, rfl⟩ := List.mem_map.1 hx
    rcases foldl_update_mem_or (width * height).toNat _ _ _ p with h | ⟨i, hi, h⟩ <;>
      rw [h] <;> simp [zeroPixel, hblack]
  rw [if_pos hzero]

/-- Witness for C10: a 1×1 fully black single-channel 8-bit image. -/
theorem c10_black_image_rejected_witness :
    ((0 : Int) < 1 ∧ (0 : Int) < 1 ∧
      ((1 : Int) = 1 ∨ (1 : Int) = 3 ∨ (1 : Int) = 4) ∧
      ((0 : Int) = CV_8U ∨ (0 : Int) = CV_16U) ∧
      (∀ p : Int × Int, (fun _ : Int × Int => ([0] : List Nat)) p = zeroPixel 1)) ∧
    process_image 1 1 1 0 (fun _ => [0]) true = none :=
  ⟨⟨by decide, by decide, by decide, by decide, fun _ => rfl⟩,
    c10_black_image_rejected 1 1 1 0 (fun _ => [0]) true
      (by decide) (by decide) (by decide) (by decide) (fun _ => rfl)⟩

/-! ### The golden-ratio offset as a real rounding -/

lemma not_isSquare_five : ¬ IsSquare (5 : Nat) := by
  rintro ⟨r, hr⟩
  rcases (show r ≤ 2 ∨ 3 ≤ r from by omega) with h | h
  · interval_cases r <;> omega
  · nlinarith

lemma irrational_sqrt_five : Irrational (Real.sqrt 5) := by
  rw [show ((5 : ℝ)) = ((5 : Nat) : ℝ) from by norm_num]
  exact irrational_sqrt_natCast_iff.mpr not_isSquare_five

/-- The executable definition `offsetOf` computes exactly
`round(((√5 − 1)/2) · total)`, the ideal real value of the C++
expression `round(golden_ratio * total)`. -/
lemma offsetOf_eq_round (n : Nat) (hn : 1 ≤ n) :
    ((offsetOf n : Nat) : Int) = round (((Real.sqrt 5 - 1) / 2) * (n : Real)) := by
  set s := Nat.sqrt (5 * n * n) with hs
  have hsn : n ≤ s := Nat.le_sqrt.mpr (by nlinarith)
  have hs1 : s * s ≤ 5 * n * n := Nat.sqrt_le (5 * n * n)
  have hs2 : 5 * n * n < (s + 1) * (s + 1) := Nat.lt_succ_sqrt (5 * n * n)
  have hn0 : (0 : ℝ) < (n : ℝ) := by exact_mod_cast hn
  have hsqrt5n : Real.sqrt ((5 : ℝ) * (n : ℝ) ^ 2) = Real.sqrt 5 * (n : ℝ) := by
    rw [Real.sqrt_mul (by norm_num) ((n : ℝ) ^ 2), Real.sqrt_sq (le_of_lt hn0)]
  have hs1R : ((s : ℝ)) * s ≤ 5 * (n : ℝ) * n := by exact_mod_cast hs1
  have hs2R : 5 * (n : ℝ) * n < ((s : ℝ) + 1) * ((s : ℝ) + 1) := by exact_mod_cast hs2
  have hlow : (s : ℝ) < Real.sqrt 5 * (n : ℝ) := by
    have h1 : (s : ℝ) ≤ Real.sqrt 5 * n := by
      rw [← hsqrt5n, show ((s : ℝ)) = Real.sqrt ((s : ℝ) ^ 2) from
        (Real.sqrt_sq (by positivity)).symm]
      apply Real.sqrt_le_sqrt
      nlinarith
    rcases lt_or_eq_of_le h1 with h | h
    · exact h
    · exfalso
      apply irrational_sqrt_five
      refine ⟨(s : ℚ) / (n : ℚ), ?_⟩
      have hq : Real.sqrt 5 = (s : ℝ) / (n : ℝ) := by
        rw [eq_div_iff (ne_of_gt hn0)]
        linarith
      rw [hq]
      push_cast
      ring
  have hhigh : Real.sqrt 5 * (n : ℝ) < (s : ℝ) + 1 := by
    rw [← hsqrt5n]
    calc Real.sqrt ((5 : ℝ) * (n : ℝ) ^ 2)
        < Real.sqrt (((s : ℝ) + 1) ^ 2) := by
          apply Real.sqrt_lt_sqrt (by positivity)
          nlinarith
      _ = (s : ℝ) + 1 := Real.sqrt_sq (by positivity)
  rw [round_eq, show (Real.sqrt 5 - 1) / 2 * (n : ℝ) + 1 / 2
      = (Real.sqrt 5 * (n : ℝ) - (n : ℝ) + 1) / 2 from by ring]
  have htR : (((s - n + 1 : Nat) : ℝ)) = (s : ℝ) - (n : ℝ) + 1 := by
    push_cast [hsn]
    ring
  have hfloor : ⌊(Real.sqrt 5 * (n : ℝ) - (n : ℝ) + 1) / 2⌋
      = ((s - n + 1 : Nat) : Int) / 2 := by
    rw [Int.floor_eq_iff]
    have hd1 : 2 * (((s - n + 1 : Nat) : Int) / 2) ≤ ((s - n + 1 : Nat) : Int) := by omega
    have hd2 : ((s - n + 1 : Nat) : Int) ≤ 2 * (((s - n + 1 : Nat) : Int) / 2) + 1 := by omega
    have hc1 : ((2 : ℝ)) * ((((s - n + 1 : Nat) : Int) / 2 : Int) : ℝ)
        ≤ (((s - n + 1 : Nat) : ℝ)) := by exact_mod_cast hd1
    have hc2 : (((s - n + 1 : Nat) : ℝ)) ≤ 2 * ((((s - n + 1 : Nat) : Int) / 2 : Int) : ℝ) + 1 := by
      exact_mod_cast hd2
    rw [htR] at hc1 hc2
    constructor
    · linarith
    · linarith
  rw [hfloor]
  unfold offsetOf
  omega

lemma offsetOf_lt {n : Nat} (hn : 2 ≤ n) : offsetOf n < n := by
  have h5 : 5 * n * n < (3 * n - 1) * (3 * n - 1) := by
    zify [show (1 : Nat) ≤ 3 * n from by omega]
    nlinarith [show (2 : Int) ≤ (n : Int) from by exact_mod_cast hn]
  have hlt : Nat.sqrt (5 * n * n) < 3 * n - 1 :=
    Nat.sqrt_lt'.mpr (by rw [pow_two]; exact h5)
  unfold offsetOf
  omega

/-- C3 counterexample at total = 1 (width = height = 1): the engine
computes `offset = round(0.618… × 1) = 1` with no modulo reduction, but
`round(0.618…) mod 1 = 0`, so the engine's offset is neither the
claimed value nor inside `[0, total)`. -/
theorem c3_total_one_counterexample :
    offsetOf 1 = 1 ∧
    round (((Real.sqrt 5 - 1) / 2) * ((1 : Nat) : Real)) % (1 : Int) = 0 ∧
    ¬(((offsetOf 1 : Nat) : Int) =
        round (((Real.sqrt 5 - 1) / 2) * ((1 : Nat) : Real)) % (1 : Int) ∧
      offsetOf 1 < 1) := by
  have ho1 : offsetOf 1 = 1 := by
    unfold offsetOf
    rw [sqrt_eq_of (5 * 1 * 1) 2 (by norm_num) (by norm_num)]
  refine ⟨ho1, Int.emod_one _, ?_⟩
  rintro ⟨h1, h2⟩
  rw [Int.emod_one] at h1
  omega

/-- C3 amended: the engine's offset is `round(((√5 − 1)/2) × total)`
with no modulo reduction; it depends only on `total`, and for every
`total ≥ 2` it lies in `[0, total)` (at `total = 1` it equals 1, outside
that range — see the counterexample). -/
theorem c3_offset_formula (total : Nat) (ht : 1 ≤ total) :
    ((offsetOf total : Nat) : Int) = round (((Real.sqrt 5 - 1) / 2) * (total : Real)) ∧
    (2 ≤ total → offsetOf total < total) :=
  ⟨offsetOf_eq_round total ht, fun h2 => offsetOf_lt h2⟩

/-- Witness for the amended C3 at total = 2. -/
theorem c3_offset_formula_witness :
    (1 ≤ 2 ∧ 2 ≤ 2) ∧
    (((offsetOf 2 : Nat) : Int) = round (((Real.sqrt 5 - 1) / 2) * ((2 : Nat) : Real)) ∧
      (2 ≤ 2 → offsetOf 2 < 2)) :=
  ⟨⟨by decide, by decide⟩, c3_offset_formula 2 (by decide)⟩

end HilbertCrypt
